import Mathlib

/-!
Verification of the incremental streaming tag parser of the vera-health-app
repository.  The definitions below are a shallow embedding of
`src/utils/tagParser.ts` (`TAG_REGEX`, `INCOMPLETE_TAG_REGEX`,
`extractCompleteTags`, `detectIncompleteTag`, `parseIntoOrderedContent`) and
`src/utils/streamBuffer.ts` (`StreamBuffer`).  Buffers are modelled as
`List Char`; the two JavaScript regexes are modelled by their exact matching
semantics, derived construct by construct:

* `TAG_REGEX = <(\w+)>([\s\S]*?)<\/\1>` (global flag, no `i` flag): at a
  candidate start the engine must see `<`, then a greedy non-empty run of word
  characters (shorter runs can never be followed by `>`, so the run is exactly
  the maximal one), then `>`, then the lazy `[\s\S]*?` stops at the FIRST
  occurrence of the back-referenced closing tag `</name>` (case-sensitive,
  since the regex has no `i` flag); if no closing occurrence exists the whole
  attempt at this start fails and the scan moves one character right.
  `exec` in a loop resumes searching at the end of the previous match.

* `INCOMPLETE_TAG_REGEX = <(\w+)>(?:[\s\S](?!<\/\1>))*$` (no flags):
  `String.match` returns the leftmost match.  After the opening tag the
  starred group consumes one character at a time, and AFTER each consumed
  character the negative lookahead requires that the remaining text does not
  start with `</name>`.  The group must consume up to `$`.  Hence the match
  succeeds exactly when no occurrence of `</name>` starts at any position
  strictly after the first content position — an occurrence at the very first
  content position is never inspected by the lookahead.
-/

namespace VeraTag

/-- JavaScript `\w` word character class: `[A-Za-z0-9_]`. -/
def isWordChar (c : Char) : Bool :=
  c.isAlpha || c.isDigit || c = '_'

/-- Whitespace recognised by JavaScript `String.prototype.trim` (the ASCII
part, which is all that occurs in this code path). -/
def isWS (c : Char) : Bool :=
  c = ' ' || c = '\t' || c = '\n' || c = '\r' || c = '\x0b' || c = '\x0c'

/-- `s.trim()` on a character list: strip leading and trailing whitespace. -/
def trimList (l : List Char) : List Char :=
  ((l.dropWhile isWS).reverse.dropWhile isWS).reverse

/-- `buffer.substring(a, b)` on a character list (half-open span). -/
def substr (l : List Char) (a b : Nat) : List Char :=
  (l.drop a).take (b - a)

/-- Character list of a string literal (used for concrete test inputs). -/
def chars (s : String) : List Char := s.data

/-- Does `p` occur as a prefix of `s`?  (Literal, case-sensitive compare, the
way a JavaScript back-reference matches without the `i` flag.) -/
def startsWithAt : List Char → List Char → Bool
  | [], _ => true
  | _ :: _, [] => false
  | p :: ps, c :: cs => p = c && startsWithAt ps cs

/-- Index of the first occurrence of `pat` in `s`, scanning left to right —
the position at which the lazy `[\s\S]*?` of `TAG_REGEX` stops. -/
def findOcc (pat : List Char) : List Char → Option Nat
  | [] => if startsWithAt pat [] then some 0 else none
  | c :: cs =>
    if startsWithAt pat (c :: cs) then some 0
    else (findOcc pat cs).map (· + 1)

/-- The greedy `\w+` run at the head of a suffix: returns the (possibly
empty) maximal word-character run and the remainder. -/
def readWord : List Char → List Char × List Char
  | [] => ([], [])
  | c :: cs =>
    if isWordChar c then
      let r := readWord cs
      (c :: r.1, r.2)
    else ([], c :: cs)

/-- JavaScript `toLowerCase` on a captured `\w+` group (ASCII letters). -/
def lowerName (w : List Char) : List Char := w.map Char.toLower

/-- Result of locating one tag occurrence (`TagMatch` of `parser.types.ts`). -/
structure TagMatch where
  tagName : List Char
  content : List Char
  startIndex : Nat
  endIndex : Nat
  isComplete : Bool
  fullMatch : List Char
deriving Repr, DecidableEq

/-- Attempt to match `TAG_REGEX` anchored at the start of the suffix `s`.
Returns the captured (original-case) name, the lazily captured content, and
the total length of the match `<w>content</w>`. -/
def matchTagAt (s : List Char) : Option (List Char × List Char × Nat) :=
  match s with
  | [] => none
  | c :: rest =>
    if c = '<' then
      let w := (readWord rest).1
      if w = [] then none
      else
        match (readWord rest).2 with
        | [] => none
        | d :: body =>
          if d = '>' then
            match findOcc ('<' :: '/' :: (w ++ ['>'])) body with
            | some k => some (w, body.take k, 2 * w.length + k + 5)
            | none => none
          else none
    else none

/-- The `exec` loop of `extractCompleteTags`: scan from position `pos`
(suffix `s` of the buffer), emitting each leftmost match and resuming after
its end.  `fuel` only bounds the recursion; `buffer.length` is always
enough because every step consumes at least one character. -/
def extractAux : Nat → Nat → List Char → List TagMatch
  | 0, _, _ => []
  | _ + 1, _, [] => []
  | fuel + 1, pos, c :: rest =>
    match matchTagAt (c :: rest) with
    | some (w, content, len) =>
      { tagName := lowerName w
        content := content
        startIndex := pos
        endIndex := pos + len
        isComplete := true
        fullMatch := (c :: rest).take len } ::
        extractAux fuel (pos + len) (rest.drop (len - 1))
    | none => extractAux fuel (pos + 1) rest

/-- `extractCompleteTags` of `tagParser.ts`: all complete `<w>…</w>`
matches of `TAG_REGEX`, in scan order, names lower-cased in the output. -/
def extractCompleteTags (buffer : List Char) : List TagMatch :=
  extractAux buffer.length 0 buffer

/-- For `INCOMPLETE_TAG_REGEX`: true when the closing sequence `pat` does
not start at any position of `body` obtained by dropping at least one
character — the per-character negative lookahead of the starred group
(which never inspects the very first content position). -/
def noOccFromOne (pat : List Char) : List Char → Bool
  | [] => true
  | _ :: cs => !startsWithAt pat cs && noOccFromOne pat cs

/-- Attempt to match `INCOMPLETE_TAG_REGEX` anchored at the start of the
suffix `s` (the match always extends to the end of the buffer).  Returns the
captured original-case name and the content after the opening tag. -/
def matchIncompleteAt (s : List Char) : Option (List Char × List Char) :=
  match s with
  | [] => none
  | c :: rest =>
    if c = '<' then
      let w := (readWord rest).1
      if w = [] then none
      else
        match (readWord rest).2 with
        | [] => none
        | d :: body =>
          if d = '>' then
            if noOccFromOne ('<' :: '/' :: (w ++ ['>'])) body then some (w, body)
            else none
          else none
    else none

/-- Leftmost-match scan for `detectIncompleteTag` (`String.match` without
the global flag returns the leftmost match). -/
def detectAux (bufLen : Nat) : Nat → List Char → Option TagMatch
  | _, [] => none
  | pos, c :: rest =>
    match matchIncompleteAt (c :: rest) with
    | some (w, body) =>
      some { tagName := lowerName w
             content := body
             startIndex := pos
             endIndex := bufLen
             isComplete := false
             fullMatch := c :: rest }
    | none => detectAux bufLen (pos + 1) rest

/-- `detectIncompleteTag` of `tagParser.ts`. -/
def detectIncompleteTag (buffer : List Char) : Option TagMatch :=
  detectAux buffer.length 0 buffer

/-- Content item produced by `parseIntoOrderedContent` (the inline record
type in `tagParser.ts`; `sec` is the `type: 'section'` variant, which there
carries a `tagName`). -/
inductive PItem where
  | text (content : List Char) (order : Nat)
  | sec (tagName : List Char) (content : List Char) (order : Nat)
deriving Repr, DecidableEq

/-- The `order` field of a content item. -/
def PItem.order : PItem → Nat
  | .text _ o => o
  | .sec _ _ o => o

/-- Result record of `parseIntoOrderedContent`. -/
structure ParseOut where
  contentItems : List PItem
  hasIncompleteTag : Bool
deriving Repr, DecidableEq

/-- The `forEach` loop over the sorted complete tags in
`parseIntoOrderedContent`: walks tags with a cursor `lastIndex`, emitting the
trimmed text run before each tag (when non-empty) and then the tag as a
section; returns the accumulated items and the final cursor. -/
def assembleTags (buffer : List Char) : List TagMatch → Nat → List PItem × Nat
  | [], lastIndex => ([], lastIndex)
  | tag :: rest, lastIndex =>
    let textItems : List PItem :=
      if lastIndex < tag.startIndex then
        let textBefore := trimList (substr buffer lastIndex tag.startIndex)
        if textBefore = [] then [] else [.text textBefore lastIndex]
      else []
    let r := assembleTags buffer rest tag.endIndex
    (textItems ++ .sec tag.tagName tag.content tag.startIndex :: r.1, r.2)

/-- The remainder handling after the tag loop in `parseIntoOrderedContent`:
text after the last complete tag is emitted trimmed, but when an incomplete
tag was detected only the part strictly before its start is emitted. -/
def remainderItems (buffer : List Char) (lastIndex : Nat)
    (incompleteTag : Option TagMatch) : List PItem :=
  if lastIndex < buffer.length then
    match incompleteTag with
    | some itag =>
      if itag.startIndex > lastIndex then
        let textBefore := trimList (substr buffer lastIndex itag.startIndex)
        if textBefore = [] then [] else [.text textBefore lastIndex]
      else []
    | none =>
      let textAfter := trimList (substr buffer lastIndex buffer.length)
      if textAfter = [] then [] else [.text textAfter lastIndex]
  else []

/-- `parseIntoOrderedContent` of `tagParser.ts`: extract complete tags,
detect an incomplete tail tag, sort tags by start index (the source calls
`sort` on an already-sorted list), assemble ordered items, and report
whether an incomplete tag was detected. -/
def parseIntoOrderedContent (buffer : List Char) : ParseOut :=
  let sortedTags :=
    List.insertionSort (fun a b : TagMatch => a.startIndex ≤ b.startIndex)
      (extractCompleteTags buffer)
  let r := assembleTags buffer sortedTags 0
  { contentItems := r.1 ++ remainderItems buffer r.2 (detectIncompleteTag buffer)
    hasIncompleteTag := (detectIncompleteTag buffer).isSome }

/-- `Section` of `chat.types.ts` as materialized by `StreamBuffer`.  The
source id is the string `section-${Date.now()}-${counter}`; the wall-clock
timestamp is not modelled, the unique per-instance counter is. -/
structure Section where
  id : Nat
  tagName : List Char
  content : List Char
  isComplete : Bool
  isCollapsed : Bool
deriving Repr, DecidableEq

/-- `ContentItem` of `chat.types.ts` (`sec` is the `type: 'section'`
variant holding a `Section`). -/
inductive ContentItem where
  | text (content : List Char) (order : Nat)
  | sec (s : Section) (order : Nat)
deriving Repr, DecidableEq

/-- State of a `StreamBuffer` instance (`streamBuffer.ts`). -/
structure StreamBuffer where
  buffer : List Char
  contentIdCounter : Nat
  lastProcessedLength : Nat
deriving Repr, DecidableEq

/-- `createStreamBuffer()`: fresh instance with empty buffer. -/
def createStreamBuffer : StreamBuffer :=
  { buffer := [], contentIdCounter := 0, lastProcessedLength := 0 }

/-- `StreamBuffer.append`: concatenate a chunk onto the buffer. -/
def StreamBuffer.append (sb : StreamBuffer) (chunk : List Char) : StreamBuffer :=
  { sb with buffer := sb.buffer ++ chunk }

/-- `StreamBuffer.clear`. -/
def StreamBuffer.clear (_sb : StreamBuffer) : StreamBuffer :=
  { buffer := [], contentIdCounter := 0, lastProcessedLength := 0 }

/-- The `map` in `parseAndExtract`/`flush` that converts parsed items to
`ContentItem`s, materializing each section with a fresh id from the
instance counter (which the source mutates with `this.contentIdCounter++`).
Returns the converted list and the counter after the pass. -/
def assignIds (counter : Nat) : List PItem → List ContentItem × Nat
  | [] => ([], counter)
  | .text c o :: rest =>
    let r := assignIds counter rest
    (.text c o :: r.1, r.2)
  | .sec tn c o :: rest =>
    let s : Section :=
      { id := counter, tagName := tn, content := c
        isComplete := true, isCollapsed := true }
    let r := assignIds (counter + 1) rest
    (.sec s o :: r.1, r.2)

/-- `StreamBuffer.parseAndExtract`: parse the current buffer, convert the
items (assigning fresh section ids), return them with the incomplete flag;
the buffer itself is untouched, only the id counter advances. -/
def StreamBuffer.parseAndExtract (sb : StreamBuffer) :
    (List ContentItem × Bool) × StreamBuffer :=
  let r := parseIntoOrderedContent sb.buffer
  let a := assignIds sb.contentIdCounter r.contentItems
  ((a.1, r.hasIncompleteTag), { sb with contentIdCounter := a.2 })

/-- `StreamBuffer.flush`: one final parse-and-convert pass, then the buffer
is cleared. -/
def StreamBuffer.flush (sb : StreamBuffer) :
    (List ContentItem × Bool) × StreamBuffer :=
  let r := parseIntoOrderedContent sb.buffer
  let a := assignIds sb.contentIdCounter r.contentItems
  ((a.1, r.hasIncompleteTag), { sb with buffer := [], contentIdCounter := a.2 })

/-- A content item is good when it is a text run, or a section carrying
`isComplete = true` and `isCollapsed = true`. -/
def goodContentItem : ContentItem → Bool
  | .text _ _ => true
  | .sec s _ => s.isComplete && s.isCollapsed

/-- Well-formedness of a tag list: working upwards from the cursor `lo`,
each tag starts at or after the cursor, spans a non-empty interval ending by
`hi`, and the next tag starts at or after its end. -/
def ChainedBetween (hi : Nat) : Nat → List TagMatch → Prop
  | _, [] => True
  | lo, t :: rest =>
    lo ≤ t.startIndex ∧ t.startIndex < t.endIndex ∧ t.endIndex ≤ hi ∧
      ChainedBetween hi t.endIndex rest

/-- The span contract of an emitted content item: a section item carries the
fields of a complete tag extracted at exactly its `order` offset, and a text
item is the non-empty trim of the buffer span starting at its `order`
(the cursor position when it was emitted). -/
def ItemSpanSpec (buffer : List Char) : PItem → Prop
  | .sec tn c o =>
    ∃ t ∈ extractCompleteTags buffer,
      t.startIndex = o ∧ t.tagName = tn ∧ t.content = c
  | .text c o =>
    ∃ e, o ≤ e ∧ e ≤ buffer.length ∧ c = trimList (substr buffer o e) ∧ c ≠ []

end VeraTag

namespace VeraTag

/-- Claim C1, counterexample: complete-tag matching is NOT case-insensitive.
Parsing the buffer `<Guideline>X</GUIDELINE>` yields no complete tag and an
empty content-item list (so certainly not exactly one section item), because
the back-reference of `TAG_REGEX` compares the closing name case-sensitively
(the regex has no `i` flag). -/
theorem caseMix_yields_no_section :
    extractCompleteTags (chars "<Guideline>X</GUIDELINE>") = [] ∧
    (parseIntoOrderedContent (chars "<Guideline>X</GUIDELINE>")).contentItems = [] ∧
    (parseIntoOrderedContent (chars "<Guideline>X</GUIDELINE>")).contentItems.length = 0 := by
  decide

/-- Claim C1, amended: tag matching is case-sensitive on the tag name (the
closing tag must repeat the opening name with identical case); only the
OUTPUT tag name is lower-cased.  `<Guideline>X</GUIDELINE>` therefore yields
no section and a pending flag, while the same-case pair
`<Guideline>X</Guideline>` yields exactly one section item whose `tagName`
is the lower-cased `guideline` with content `X`. -/
theorem tag_matching_case_sensitive :
    extractCompleteTags (chars "<Guideline>X</GUIDELINE>") = [] ∧
    (parseIntoOrderedContent (chars "<Guideline>X</GUIDELINE>")).hasIncompleteTag = true ∧
    (parseIntoOrderedContent (chars "<Guideline>X</Guideline>")).contentItems =
      [.sec (chars "guideline") (chars "X") 0] ∧
    (parseIntoOrderedContent (chars "<Guideline>X</Guideline>")).hasIncompleteTag = false := by
  decide

/-- Claim C2: on the buffer `<a></a>` — whose only tag construct is a
complete tag — the code still reports `hasIncompleteTag = true`, because
`INCOMPLETE_TAG_REGEX` checks its negative lookahead only AFTER each
consumed character and never at the first content position, so a closing tag
immediately following the opening tag is invisible to it.  The remainder
branch did not fire (the complete tag covers the whole buffer and the single
section is emitted), so the flag is not equivalent to that branch firing,
contradicting the claim and the regex's own doc comment. -/
theorem flag_true_on_fully_closed_buffer :
    extractCompleteTags (chars "<a></a>") =
      [{ tagName := chars "a", content := [], startIndex := 0, endIndex := 7,
         isComplete := true, fullMatch := chars "<a></a>" }] ∧
    (parseIntoOrderedContent (chars "<a></a>")).contentItems =
      [.sec (chars "a") [] 0] ∧
    (parseIntoOrderedContent (chars "<a></a>")).hasIncompleteTag = true ∧
    detectIncompleteTag (chars "<a></a>") =
      some { tagName := chars "a", content := chars "</a>", startIndex := 0,
             endIndex := 7, isComplete := false, fullMatch := chars "<a></a>" } := by
  decide

/-- Claim C3, counterexample: on `<a>text<b>more` incomplete-tag detection
reports the FIRST unclosed opening tag `<a>` at offset 0 (not the last one
`<b>` at offset 7), and consequently the whole buffer is suppressed — no
text item `<a>text` is emitted before the pending tag. -/
theorem detects_first_unclosed_tag :
    detectIncompleteTag (chars "<a>text<b>more") =
      some { tagName := chars "a", content := chars "text<b>more", startIndex := 0,
             endIndex := 14, isComplete := false, fullMatch := chars "<a>text<b>more" } ∧
    (parseIntoOrderedContent (chars "<a>text<b>more")).contentItems = [] := by
  decide

/-- Claim C3, amended: with several unclosed opening tags after the last
complete tag, detection reports the EARLIEST such unclosed opening tag, and
the parser suppresses exactly the span from that tag's start to the end of
the buffer, still emitting unclaimed text before that start as a text item.
For `<a>text<b>more` the reported tag starts at offset 0 and nothing is
emitted; for `ok <b>more` the reported tag starts at offset 3 and the text
`ok` before it is emitted. -/
theorem earliest_unclosed_tag_suppression :
    (detectIncompleteTag (chars "<a>text<b>more")).map TagMatch.startIndex = some 0 ∧
    (detectIncompleteTag (chars "<a>text<b>more")).map TagMatch.tagName = some (chars "a") ∧
    (parseIntoOrderedContent (chars "<a>text<b>more")).contentItems = [] ∧
    (parseIntoOrderedContent (chars "<a>text<b>more")).hasIncompleteTag = true ∧
    (detectIncompleteTag (chars "ok <b>more")).map TagMatch.startIndex = some 3 ∧
    (parseIntoOrderedContent (chars "ok <b>more")).contentItems =
      [.text (chars "ok") 0] := by
  decide

/-- Claim C4: split-boundary equivalence.  Appending `B[0:k]` then `B[k:]`
to a fresh `StreamBuffer` and calling `parseAndExtract` once afterwards
gives exactly the same result (items, flag, and successor state — so in
particular the same result ignoring ids) as appending `B` in one shot,
because `append` only concatenates and `parseAndExtract` is a function of
the accumulated buffer, which is `B` either way. -/
theorem split_boundary_equivalence (B : List Char) (k : Nat) (_hk : k ≤ B.length) :
    ((createStreamBuffer.append (B.take k)).append (B.drop k)).parseAndExtract =
      (createStreamBuffer.append B).parseAndExtract := by
  simp [StreamBuffer.append, createStreamBuffer]

/-- Claim C4, witness: the equivalence at the concrete buffer `ab<c>d` split
at `k = 3` (inside the tag name span). -/
theorem split_boundary_equivalence_witness :
    ((createStreamBuffer.append ((chars "ab<c>d").take 3)).append
        ((chars "ab<c>d").drop 3)).parseAndExtract =
      (createStreamBuffer.append (chars "ab<c>d")).parseAndExtract :=
  split_boundary_equivalence (chars "ab<c>d") 3 (by decide)

/-- Claim C7: complete-tag extraction scans left to right with non-greedy
content capture and no nesting: `<a>X</a><a>Y</a>` yields two separate
matches; `<a><b>X</b></a>` yields exactly one section named `a` whose
content is the literal `<b>X</b>`; and `<guideline>A</guideline><drug>B</drug>`
yields exactly two section items in that order with no text item between. -/
theorem nongreedy_scan_no_nesting :
    extractCompleteTags (chars "<a>X</a><a>Y</a>") =
      [{ tagName := chars "a", content := chars "X", startIndex := 0, endIndex := 8,
         isComplete := true, fullMatch := chars "<a>X</a>" },
       { tagName := chars "a", content := chars "Y", startIndex := 8, endIndex := 16,
         isComplete := true, fullMatch := chars "<a>Y</a>" }] ∧
    extractCompleteTags (chars "<a><b>X</b></a>") =
      [{ tagName := chars "a", content := chars "<b>X</b>", startIndex := 0,
         endIndex := 15, isComplete := true, fullMatch := chars "<a><b>X</b></a>" }] ∧
    (parseIntoOrderedContent (chars "<guideline>A</guideline><drug>B</drug>")).contentItems =
      [.sec (chars "guideline") (chars "A") 0,
       .sec (chars "drug") (chars "B") 24] := by
  decide

/-- Claim C8, counterexample: a mismatched pair is NOT always carried as
ordinary text.  On the buffer `<a>x</b>` the unmatched opening tag `<a>` is
treated as a pending incomplete tag, so the parser withholds the entire
buffer: the content-item list is empty and none of these characters appear
in any text item. -/
theorem mismatched_pair_withheld :
    (parseIntoOrderedContent (chars "<a>x</b>")).contentItems = [] ∧
    (parseIntoOrderedContent (chars "<a>x</b>")).hasIncompleteTag = true := by
  decide

/-- Claim C8, amended: parsing is total (every operation is a total
function of the buffer), and malformed markup that contains no well-formed
unclosed opening tag — a stray `<`, a closing tag with no opener, an opening
tag with attributes — is never matched as a tag and is carried as ordinary
text; but a well-formed opening tag whose matching closer never appears
(including mismatched-name pairs such as `<a>x</b>`) is withheld as pending
rather than carried as text. -/
theorem malformed_markup_is_literal_text :
    extractCompleteTags (chars "a < b") = [] ∧
    (parseIntoOrderedContent (chars "a < b")).contentItems =
      [.text (chars "a < b") 0] ∧
    extractCompleteTags (chars "x </a> y") = [] ∧
    (parseIntoOrderedContent (chars "x </a> y")).contentItems =
      [.text (chars "x </a> y") 0] ∧
    extractCompleteTags (chars "see <guideline type=\"x\">done") = [] ∧
    (parseIntoOrderedContent (chars "see <guideline type=\"x\">done")).contentItems =
      [.text (chars "see <guideline type=\"x\">done") 0] ∧
    extractCompleteTags (chars "<a>x</b>") = [] ∧
    (parseIntoOrderedContent (chars "<a>x</b>")).contentItems = [] := by
  decide

end VeraTag

namespace VeraTag

/-- Splitting the greedy word run off a suffix and re-concatenating restores
the suffix. -/
theorem readWord_append (s : List Char) : (readWord s).1 ++ (readWord s).2 = s := by
  induction s with
  | nil => rfl
  | cons c cs ih =>
    by_cases h : isWordChar c
    · simp [readWord, h, ih]
    · simp [readWord, h]

/-- Every character of the greedy word run is a word character. -/
theorem readWord_word (s : List Char) : (readWord s).1.all isWordChar = true := by
  induction s with
  | nil => rfl
  | cons c cs ih =>
    by_cases h : isWordChar c
    · simp [readWord, h, ih]
    · simp [readWord, h]

/-- Shape of a successful `INCOMPLETE_TAG_REGEX` anchored match: the suffix
begins with a fully formed opening tag `<w>` (non-empty word-character name,
terminated by `>`) followed by the remaining content. -/
theorem matchIncompleteAt_shape {s w body : List Char}
    (h : matchIncompleteAt s = some (w, body)) :
    s = '<' :: (w ++ '>' :: body) ∧ w ≠ [] ∧ w.all isWordChar = true := by
  match s with
  | [] => simp [matchIncompleteAt] at h
  | c :: rest =>
    rw [matchIncompleteAt] at h
    by_cases hc : c = '<'
    case neg => simp [hc] at h
    subst hc
    simp only [if_pos rfl] at h
    by_cases hw : (readWord rest).1 = []
    case pos => simp [hw] at h
    rw [if_neg hw] at h
    rcases hr : (readWord rest).2 with _ | ⟨d, body2⟩
    · rw [hr] at h; simp at h
    rw [hr] at h
    by_cases hd : d = '>'
    case neg => simp [hd] at h
    subst hd
    simp only [if_pos rfl] at h
    by_cases hocc : noOccFromOne ('<' :: '/' :: ((readWord rest).1 ++ ['>'])) body2
    case neg => simp [hocc] at h
    rw [if_pos hocc] at h
    injection h with h2
    injection h2 with hw2 hb2
    subst hw2; subst hb2
    refine ⟨?_, hw, readWord_word rest⟩
    have hra := readWord_append rest
    rw [hr] at hra
    rw [hra]

/-- A successful leftmost scan for the incomplete-tag regex yields a match
whose start offset `pos + j` lies inside the scanned suffix, at which a
fully formed opening tag `<w>` begins. -/
theorem detectAux_some :
    ∀ (s : List Char) (blen pos : Nat) (t : TagMatch),
      detectAux blen pos s = some t →
      ∃ j w body, j < s.length ∧ t.startIndex = pos + j ∧
        s.drop j = '<' :: (w ++ '>' :: body) ∧ w ≠ [] ∧ w.all isWordChar = true := by
  intro s
  induction s with
  | nil => intro blen pos t h; simp [detectAux] at h
  | cons c rest ih =>
    intro blen pos t h
    rw [detectAux] at h
    cases hm : matchIncompleteAt (c :: rest) with
    | some wb =>
      rw [hm] at h
      obtain ⟨w, body⟩ := wb
      obtain ⟨hs, hw, hall⟩ := matchIncompleteAt_shape hm
      injection h with h2
      subst h2
      exact ⟨0, w, body, by simp, by simp, by simpa using hs, hw, hall⟩
    | none =>
      rw [hm] at h
      obtain ⟨j, w, body, hj, hsi, hdrop, hw, hall⟩ := ih blen (pos + 1) t h
      exact ⟨j + 1, w, body, by simpa using Nat.succ_lt_succ hj, by omega,
        by simpa using hdrop, hw, hall⟩

/-- A detected incomplete tag starts strictly inside the buffer. -/
theorem detect_startIndex_lt {buffer : List Char} {t : TagMatch}
    (h : detectIncompleteTag buffer = some t) : t.startIndex < buffer.length := by
  obtain ⟨j, w, body, hj, hsi, -, -, -⟩ :=
    detectAux_some buffer buffer.length 0 t h
  omega

/-- Claim C6: `flush` performs one final parse that never emits a pending
incomplete tag's content — on the buffer `<note>Unterminated` it returns an
empty item list with pending flag true, for any value of the id counter —
then leaves the internal buffer empty; `flush` on an empty buffer returns an
empty list and a false pending flag, and the buffer after any `flush` is
always empty. -/
theorem flush_discards_incomplete_and_clears :
    (∀ c l : Nat,
      (StreamBuffer.flush ⟨chars "<note>Unterminated", c, l⟩).1 = ([], true) ∧
      (StreamBuffer.flush ⟨chars "<note>Unterminated", c, l⟩).2.buffer = []) ∧
    (StreamBuffer.flush ⟨[], 0, 0⟩).1 = ([], false) ∧
    ∀ sb : StreamBuffer, (StreamBuffer.flush sb).2.buffer = [] := by
  refine ⟨fun c l => ?_, by decide, fun sb => ?_⟩
  · have h : parseIntoOrderedContent (chars "<note>Unterminated") =
        { contentItems := [], hasIncompleteTag := true } := by decide
    refine ⟨?_, ?_⟩ <;> simp [StreamBuffer.flush, h, assignIds]
  · simp [StreamBuffer.flush]

/-- Converting parsed items to `ContentItem`s only ever materializes
sections with `isComplete = true` and `isCollapsed = true`. -/
theorem assignIds_all_good (pitems : List PItem) :
    ∀ counter : Nat, ((assignIds counter pitems).1.all goodContentItem) = true := by
  induction pitems with
  | nil => intro c; rfl
  | cons hd tl ih =>
    intro c
    cases hd with
    | text tc o => simp [assignIds, goodContentItem, ih]
    | sec tn tc o => simp [assignIds, goodContentItem, ih]

/-- Claim C9: every item returned by `parseAndExtract` or `flush` is either
a text run or a section with `isComplete = true` and `isCollapsed = true`;
no output ever contains a section with `isComplete = false`. -/
theorem sections_complete_and_collapsed (sb : StreamBuffer) :
    ((sb.parseAndExtract.1.1.all goodContentItem) = true) ∧
    ((sb.flush.1.1.all goodContentItem) = true) := by
  constructor <;>
    simp [StreamBuffer.parseAndExtract, StreamBuffer.flush, assignIds_all_good]

/-- Claim C10: a partial opening tag lacking its closing `>` is not detected
as pending — on `Before <guide` detection yields nothing, the pending flag
is false and the raw characters (including `<guide`) are emitted as the
trailing text item; in general every detected incomplete tag starts with a
FULLY formed opening tag `<w>` (non-empty word-character name terminated by
`>`) at its start offset. -/
theorem partial_open_tag_not_detected :
    (detectIncompleteTag (chars "Before <guide") = none ∧
     (parseIntoOrderedContent (chars "Before <guide")).contentItems =
       [.text (chars "Before <guide") 0] ∧
     (parseIntoOrderedContent (chars "Before <guide")).hasIncompleteTag = false) ∧
    ∀ (buffer : List Char) (t : TagMatch), detectIncompleteTag buffer = some t →
      ∃ w body, w ≠ [] ∧ w.all isWordChar = true ∧
        buffer.drop t.startIndex = '<' :: (w ++ '>' :: body) := by
  refine ⟨by decide, fun buffer t h => ?_⟩
  obtain ⟨j, w, body, hj, hsi, hdrop, hw, hall⟩ :=
    detectAux_some buffer buffer.length 0 t h
  refine ⟨w, body, hw, hall, ?_⟩
  rw [hsi]
  simpa using hdrop

/-- Claim C10, witness: applying the general part at the buffer `<note>hi`,
whose detected incomplete tag starts at offset 0. -/
theorem partial_open_tag_witness :
    ∃ w body, w ≠ [] ∧ w.all isWordChar = true ∧
      (chars "<note>hi").drop 0 = '<' :: (w ++ '>' :: body) := by
  have h : detectIncompleteTag (chars "<note>hi") =
      some { tagName := chars "note", content := chars "hi", startIndex := 0,
             endIndex := 8, isComplete := false, fullMatch := chars "<note>hi" } := by
    decide
  simpa using partial_open_tag_not_detected.2 (chars "<note>hi") _ h

end VeraTag

namespace VeraTag

/-- A successful literal-prefix test implies the pattern fits. -/
theorem startsWithAt_length : ∀ {p s : List Char},
    startsWithAt p s = true → p.length ≤ s.length := by
  intro p
  induction p with
  | nil => intro s _; simp
  | cons a ps ih =>
    intro s h
    cases s with
    | nil => simp [startsWithAt] at h
    | cons c cs =>
      simp only [startsWithAt, Bool.and_eq_true] at h
      have := ih h.2
      simp only [List.length_cons]
      omega

/-- The first-occurrence index leaves room for the whole pattern. -/
theorem findOcc_bound : ∀ {s pat : List Char} {k : Nat},
    findOcc pat s = some k → k + pat.length ≤ s.length := by
  intro s
  induction s with
  | nil =>
    intro pat k h
    simp only [findOcc] at h
    split at h
    · injection h with h2
      subst h2
      rename_i hs
      simpa using startsWithAt_length hs
    · exact absurd h (by simp)
  | cons c cs ih =>
    intro pat k h
    simp only [findOcc] at h
    split at h
    · injection h with h2
      subst h2
      rename_i hs
      simpa using startsWithAt_length hs
    · cases hf : findOcc pat cs with
      | none => rw [hf] at h; simp at h
      | some k2 =>
        rw [hf] at h
        simp only [Option.map_some'] at h
        injection h with h2
        subst h2
        have := ih hf
        simp only [List.length_cons]
        omega

/-- A successful anchored `TAG_REGEX` match has positive length and fits
inside the suffix it was matched against. -/
theorem matchTagAt_bounds : ∀ {s w content : List Char} {len : Nat},
    matchTagAt s = some (w, content, len) → 0 < len ∧ len ≤ s.length := by
  intro s w content len h
  match s with
  | [] => simp [matchTagAt] at h
  | c :: rest =>
    rw [matchTagAt] at h
    by_cases hc : c = '<'
    case neg => simp [hc] at h
    subst hc
    simp only [if_pos rfl] at h
    by_cases hw : (readWord rest).1 = []
    case pos => simp [hw] at h
    rw [if_neg hw] at h
    rcases hr : (readWord rest).2 with _ | ⟨d, body⟩
    · rw [hr] at h; simp at h
    rw [hr] at h
    by_cases hd : d = '>'
    case neg => simp [hd] at h
    subst hd
    simp only [if_pos rfl] at h
    cases hf : findOcc ('<' :: '/' :: ((readWord rest).1 ++ ['>'])) body with
    | none => rw [hf] at h; simp at h
    | some k =>
      rw [hf] at h
      injection h with h2
      injection h2 with hweq h3
      injection h3 with hceq hleq
      have hb := findOcc_bound hf
      simp only [List.length_cons, List.length_append, List.length_singleton] at hb
      have hra := readWord_append rest
      rw [hr] at hra
      have hlen : (readWord rest).1.length + (body.length + 1) = rest.length := by
        have := congrArg List.length hra
        simpa [List.length_append] using this
      rw [← hleq]
      simp only [List.length_cons]
      omega

/-- Raising the upper bound preserves chaining. -/
theorem chainedBetween_mono_hi {hi hi' : Nat} :
    ∀ {l : List TagMatch} {lo : Nat},
      hi ≤ hi' → ChainedBetween hi lo l → ChainedBetween hi' lo l := by
  intro l
  induction l with
  | nil => intro lo _ _; simp [ChainedBetween]
  | cons t rest ih =>
    intro lo hh hc
    obtain ⟨h1, h2, h3, h4⟩ := hc
    exact ⟨h1, h2, le_trans h3 hh, ih hh h4⟩

/-- Lowering the cursor preserves chaining. -/
theorem chainedBetween_mono_lo :
    ∀ {l : List TagMatch} {hi lo lo' : Nat},
      lo' ≤ lo → ChainedBetween hi lo l → ChainedBetween hi lo' l := by
  intro l hi lo lo' hle hc
  cases l with
  | nil => simp [ChainedBetween]
  | cons t rest =>
    obtain ⟨h1, h2, h3, h4⟩ := hc
    exact ⟨le_trans hle h1, h2, h3, h4⟩

/-- The extraction scan emits tags chained upwards from the scan position,
all ending within the scanned region. -/
theorem extractAux_chained :
    ∀ (fuel : Nat) (s : List Char) (pos : Nat),
      ChainedBetween (pos + s.length) pos (extractAux fuel pos s) := by
  intro fuel
  induction fuel with
  | zero => intro s pos; simp [extractAux, ChainedBetween]
  | succ n ih =>
    intro s pos
    cases s with
    | nil => simp [extractAux, ChainedBetween]
    | cons c rest =>
      simp only [extractAux]
      cases hm : matchTagAt (c :: rest) with
      | some wcl =>
        obtain ⟨w, content, len⟩ := wcl
        obtain ⟨hpos, hlen⟩ := matchTagAt_bounds hm
        simp only [List.length_cons] at hlen
        refine ⟨le_refl _, ?_, ?_, ?_⟩
        · show pos < pos + len
          omega
        · show pos + len ≤ pos + (c :: rest).length
          simp only [List.length_cons]
          omega
        · show ChainedBetween (pos + (c :: rest).length) (pos + len)
            (extractAux n (pos + len) (rest.drop (len - 1)))
          have htail := ih (rest.drop (len - 1)) (pos + len)
          refine chainedBetween_mono_hi ?_ htail
          simp only [List.length_drop, List.length_cons]
          omega
      | none =>
        have htail := ih rest (pos + 1)
        have h2 := chainedBetween_mono_lo (Nat.le_succ pos) htail
        refine chainedBetween_mono_hi ?_ h2
        simp only [List.length_cons]
        omega

/-- The complete-tag list of a buffer is chained from offset 0 and bounded
by the buffer length. -/
theorem extract_chained (buffer : List Char) :
    ChainedBetween buffer.length 0 (extractCompleteTags buffer) := by
  have h := extractAux_chained buffer.length buffer 0
  exact chainedBetween_mono_hi (by omega) h

/-- Every tag of a chained list starts at or after the cursor. -/
theorem chainedBetween_lb : ∀ {l : List TagMatch} {hi lo : Nat},
    ChainedBetween hi lo l → ∀ t ∈ l, lo ≤ t.startIndex := by
  intro l
  induction l with
  | nil => intro hi lo _ t ht; simp at ht
  | cons u rest ih =>
    intro hi lo hc t ht
    obtain ⟨h1, h2, h3, h4⟩ := hc
    rcases List.mem_cons.mp ht with rfl | hmem
    · exact h1
    · have := ih h4 t hmem
      omega

/-- A chained tag list is sorted by start index. -/
theorem chainedBetween_sorted : ∀ {l : List TagMatch} {hi lo : Nat},
    ChainedBetween hi lo l →
    List.Sorted (fun a b : TagMatch => a.startIndex ≤ b.startIndex) l := by
  intro l
  induction l with
  | nil => intro hi lo _; simp
  | cons u rest ih =>
    intro hi lo hc
    obtain ⟨h1, h2, h3, h4⟩ := hc
    rw [List.sorted_cons]
    refine ⟨fun b hb => ?_, ih h4⟩
    have := chainedBetween_lb h4 b hb
    omega

/-- The sort inside `parseIntoOrderedContent` is the identity: extraction
already emits tags in increasing start order. -/
theorem sort_extract_eq (buffer : List Char) :
    List.insertionSort (fun a b : TagMatch => a.startIndex ≤ b.startIndex)
      (extractCompleteTags buffer) = extractCompleteTags buffer :=
  List.Sorted.insertionSort_eq (chainedBetween_sorted (extract_chained buffer))

/-- An element of `head?` is a member. -/
theorem head?_mem {α : Type} {l : List α} {a : α} (h : a ∈ l.head?) : a ∈ l := by
  cases l with
  | nil => simp at h
  | cons x xs =>
    simp only [List.head?_cons, Option.mem_def, Option.some.injEq] at h
    subst h
    exact List.mem_cons_self x xs

/-- An element of `getLast?` is a member. -/
theorem getLast?_mem_list {α : Type} {l : List α} {a : α} (h : a ∈ l.getLast?) :
    a ∈ l := by
  obtain ⟨hne, rfl⟩ := List.mem_getLast?_eq_getLast h
  exact List.getLast_mem hne

/-- The tag-walking loop of the assembler: starting from cursor `lo` on a
chained tag list whose tags all come from the buffer's extraction, the final
cursor is at least `lo`, every emitted item has its order between `lo` and
the final cursor and satisfies the span contract, and the emitted orders are
non-decreasing. -/
theorem assembleTags_spec (buffer : List Char) :
    ∀ (tags : List TagMatch) (lo : Nat),
      ChainedBetween buffer.length lo tags →
      (∀ t ∈ tags, t ∈ extractCompleteTags buffer) →
      lo ≤ (assembleTags buffer tags lo).2 ∧
      (∀ it ∈ (assembleTags buffer tags lo).1,
        lo ≤ it.order ∧ it.order ≤ (assembleTags buffer tags lo).2 ∧
        ItemSpanSpec buffer it) ∧
      List.Chain' (fun a b => a ≤ b)
        (((assembleTags buffer tags lo).1).map PItem.order) := by
  intro tags
  induction tags with
  | nil =>
    intro lo _ _
    refine ⟨le_refl _, ?_, ?_⟩ <;> simp [assembleTags]
  | cons tag rest ih =>
    intro lo hch hmem
    obtain ⟨h1, h2, h3, h4⟩ := hch
    have hmem2 : ∀ t ∈ rest, t ∈ extractCompleteTags buffer :=
      fun t ht => hmem t (List.mem_cons_of_mem _ ht)
    have hmemtag : tag ∈ extractCompleteTags buffer :=
      hmem tag (List.mem_cons_self _ _)
    obtain ⟨ihfin, ihitems, ihchain⟩ := ih tag.endIndex h4 hmem2
    have hsec_spec : ItemSpanSpec buffer
        (PItem.sec tag.tagName tag.content tag.startIndex) :=
      ⟨tag, hmemtag, rfl, rfl, rfl⟩
    have htail_head : ∀ y ∈ ((assembleTags buffer rest tag.endIndex).1.map
        PItem.order).head?, tag.startIndex ≤ y := by
      intro y hy
      have hymem := head?_mem hy
      obtain ⟨ity, hity, rfl⟩ := List.mem_map.mp hymem
      have := (ihitems ity hity).1
      omega
    by_cases hlt : lo < tag.startIndex
    · by_cases htb : trimList (substr buffer lo tag.startIndex) = []
      · have heq : assembleTags buffer (tag :: rest) lo =
            (PItem.sec tag.tagName tag.content tag.startIndex ::
               (assembleTags buffer rest tag.endIndex).1,
             (assembleTags buffer rest tag.endIndex).2) := by
          simp [assembleTags, hlt, htb]
        rw [heq]
        refine ⟨by omega, ?_, ?_⟩
        · intro it hit
          rcases List.mem_cons.mp hit with rfl | hmem3
          · exact ⟨by simp [PItem.order]; omega,
              by have := ihfin; simp [PItem.order]; omega, hsec_spec⟩
          · obtain ⟨hlb, hub, hs⟩ := ihitems it hmem3
            exact ⟨by omega, hub, hs⟩
        · simp only [List.map_cons]
          rw [List.chain'_cons']
          exact ⟨htail_head, ihchain⟩
      · have heq : assembleTags buffer (tag :: rest) lo =
            (PItem.text (trimList (substr buffer lo tag.startIndex)) lo ::
               PItem.sec tag.tagName tag.content tag.startIndex ::
               (assembleTags buffer rest tag.endIndex).1,
             (assembleTags buffer rest tag.endIndex).2) := by
          simp [assembleTags, hlt, htb]
        rw [heq]
        have htext_spec : ItemSpanSpec buffer
            (PItem.text (trimList (substr buffer lo tag.startIndex)) lo) :=
          ⟨tag.startIndex, by omega, by omega, rfl, htb⟩
        refine ⟨by omega, ?_, ?_⟩
        · intro it hit
          rcases List.mem_cons.mp hit with rfl | hit2
          · exact ⟨le_refl _, by simp [PItem.order]; omega, htext_spec⟩
          rcases List.mem_cons.mp hit2 with rfl | hmem3
          · exact ⟨by simp [PItem.order]; omega,
              by simp [PItem.order]; omega, hsec_spec⟩
          · obtain ⟨hlb, hub, hs⟩ := ihitems it hmem3
            exact ⟨by omega, hub, hs⟩
        · simp only [List.map_cons]
          rw [List.chain'_cons]
          refine ⟨by simp [PItem.order]; omega, ?_⟩
          rw [List.chain'_cons']
          exact ⟨htail_head, ihchain⟩
    · have heq : assembleTags buffer (tag :: rest) lo =
          (PItem.sec tag.tagName tag.content tag.startIndex ::
             (assembleTags buffer rest tag.endIndex).1,
           (assembleTags buffer rest tag.endIndex).2) := by
        simp [assembleTags, hlt]
      rw [heq]
      refine ⟨by omega, ?_, ?_⟩
      · intro it hit
        rcases List.mem_cons.mp hit with rfl | hmem3
        · exact ⟨by simp [PItem.order]; omega, by simp [PItem.order]; omega, hsec_spec⟩
        · obtain ⟨hlb, hub, hs⟩ := ihitems it hmem3
          exact ⟨by omega, hub, hs⟩
      · simp only [List.map_cons]
        rw [List.chain'_cons']
        exact ⟨htail_head, ihchain⟩

/-- The remainder step emits nothing or exactly one text item at the final
cursor position. -/
theorem remainderItems_struct (buffer : List Char) (cursor : Nat)
    (d : Option TagMatch) :
    remainderItems buffer cursor d = [] ∨
    ∃ c, remainderItems buffer cursor d = [PItem.text c cursor] := by
  unfold remainderItems
  by_cases hlen : cursor < buffer.length
  case neg => simp [hlen]
  rw [if_pos hlen]
  cases d with
  | some itag =>
    dsimp only
    by_cases hgt : itag.startIndex > cursor
    · rw [if_pos hgt]
      by_cases htb : trimList (substr buffer cursor itag.startIndex) = []
      · left; simp [htb]
      · right
        exact ⟨trimList (substr buffer cursor itag.startIndex), by simp [htb]⟩
    · left; simp [hgt]
  | none =>
    dsimp only
    by_cases htb : trimList (substr buffer cursor buffer.length) = []
    · left; simp [htb]
    · right
      exact ⟨trimList (substr buffer cursor buffer.length), by simp [htb]⟩

/-- Every remainder item sits exactly at the final cursor and satisfies the
span contract. -/
theorem remainderItems_spec (buffer : List Char) (cursor : Nat) :
    ∀ it ∈ remainderItems buffer cursor (detectIncompleteTag buffer),
      it.order = cursor ∧ ItemSpanSpec buffer it := by
  intro it hit
  unfold remainderItems at hit
  by_cases hlen : cursor < buffer.length
  case neg => simp [hlen] at hit
  rw [if_pos hlen] at hit
  cases hdet : detectIncompleteTag buffer with
  | some itag =>
    rw [hdet] at hit
    dsimp only at hit
    by_cases hgt : itag.startIndex > cursor
    case neg => simp [hgt] at hit
    rw [if_pos hgt] at hit
    by_cases htb : trimList (substr buffer cursor itag.startIndex) = []
    · simp [htb] at hit
    · rw [if_neg htb] at hit
      simp only [List.mem_singleton] at hit
      subst hit
      refine ⟨rfl, itag.startIndex, by omega, ?_, rfl, htb⟩
      exact le_of_lt (detect_startIndex_lt hdet)
  | none =>
    rw [hdet] at hit
    dsimp only at hit
    by_cases htb : trimList (substr buffer cursor buffer.length) = []
    · simp [htb] at hit
    · rw [if_neg htb] at hit
      simp only [List.mem_singleton] at hit
      subst hit
      exact ⟨rfl, buffer.length, by omega, le_refl _, rfl, htb⟩

/-- Claim C5: for every buffer, the `order` values of the content-item list
returned by `parseIntoOrderedContent` are non-decreasing in list position,
and each item's order is the starting offset of its source span: a section
item carries a complete tag extracted at exactly its order offset, and a
text item is the non-empty trim of the buffer span that starts at its order
(the cursor position when it was emitted). -/
theorem orders_monotone_and_spans (buffer : List Char) :
    List.Chain' (fun a b => a ≤ b)
      (((parseIntoOrderedContent buffer).contentItems).map PItem.order) ∧
    ∀ it ∈ (parseIntoOrderedContent buffer).contentItems,
      ItemSpanSpec buffer it := by
  obtain ⟨hfin, hitems, hchain⟩ :=
    assembleTags_spec buffer (extractCompleteTags buffer) 0
      (extract_chained buffer) (fun t ht => ht)
  have hpc : (parseIntoOrderedContent buffer).contentItems =
      (assembleTags buffer (extractCompleteTags buffer) 0).1 ++
        remainderItems buffer
          (assembleTags buffer (extractCompleteTags buffer) 0).2
          (detectIncompleteTag buffer) := by
    simp only [parseIntoOrderedContent]
    rw [sort_extract_eq]
  rw [hpc]
  have hrem := remainderItems_spec buffer
    (assembleTags buffer (extractCompleteTags buffer) 0).2
  constructor
  · rw [List.map_append, List.chain'_append]
    refine ⟨hchain, ?_, ?_⟩
    · rcases remainderItems_struct buffer
          (assembleTags buffer (extractCompleteTags buffer) 0).2
          (detectIncompleteTag buffer) with h | ⟨c, h⟩ <;> simp [h]
    · intro x hx y hy
      have hxmem := getLast?_mem_list hx
      obtain ⟨itx, hitx, rfl⟩ := List.mem_map.mp hxmem
      have hxle := (hitems itx hitx).2.1
      have hymem := head?_mem hy
      obtain ⟨ity, hity, rfl⟩ := List.mem_map.mp hymem
      have hyeq := (hrem ity hity).1
      omega
  · intro it hit
    rcases List.mem_append.mp hit with h | h
    · exact (hitems it h).2.2
    · exact (hrem it h).2

/-- Claim C5, witness: the span contract instantiated at the buffer
`x<a>y</a>`, whose first emitted item is the text run `x` at order 0. -/
theorem orders_monotone_and_spans_witness :
    ItemSpanSpec (chars "x<a>y</a>") (PItem.text (chars "x") 0) :=
  (orders_monotone_and_spans (chars "x<a>y</a>")).2
    (PItem.text (chars "x") 0) (by decide)

end VeraTag
